import Mathlib

/-!
Shallow embedding of the `ranalyzer` bitstream reader (`src/bits.rs`) and of
the OBU type constants (`src/av1/obu.rs`), together with proofs about the
numeric code families `f`, `f1`, `uvlc`, `le`, `leb128`, `su`, `ns`.

Machine integers are modelled as `Nat` with explicit reduction modulo `2 ^ 32`
where the Rust `u32` accumulator wraps.  A Rust debug-mode panic (arithmetic
underflow/overflow, shift amount at least the bit width, failed `assert!`) is
modelled as the distinguished error `RErr.overflow`; the `std::io` unexpected
end-of-file error is `RErr.eof`.  The underlying `Read` source is a list of
bytes: `read_exact` on one byte either pops the head or reports end-of-file.
-/

set_option maxRecDepth 8192

namespace Ranalyzer

/-- Wrap-around modulus of the 32-bit accumulator. -/
def U32 : Nat := 2 ^ 32

/-- Errors a reader operation can surface: `eof` models
`std::io::ErrorKind::UnexpectedEof`, `overflow` models a Rust debug-mode
panic (integer overflow/underflow or an out-of-range shift amount). -/
inductive RErr where
  | eof : RErr
  | overflow : RErr
deriving DecidableEq, Repr

instance exceptDecEq {ε α : Type} [DecidableEq ε] [DecidableEq α] :
    DecidableEq (Except ε α)
  | .ok x, .ok y =>
    if h : x = y then .isTrue (congrArg Except.ok h)
    else .isFalse (fun hc => h (Except.ok.inj hc))
  | .ok _, .error _ => .isFalse (fun hc => Except.noConfusion hc)
  | .error _, .ok _ => .isFalse (fun hc => Except.noConfusion hc)
  | .error e, .error e2 =>
    if h : e = e2 then .isTrue (congrArg Except.error h)
    else .isFalse (fun hc => h (Except.error.inj hc))

/-- The `BitstreamReader` state: the `u32` lookahead accumulator `buf`, the
count `remaining` of valid bits (left-aligned in `buf`), the `eof` flag, and
the unread bytes of the underlying source. -/
structure Reader where
  buf : Nat
  remaining : Nat
  eof : Bool
  input : List Nat
deriving DecidableEq, Repr

/-- One iteration bound of the `refill` loop: `while remaining < 32` reads a
byte and shifts it in; on end-of-source the partial fill is left-shifted to
the top of the accumulator and the `eof` flag is reported.  The loop runs at
most four times (`remaining` steps 0,8,16,24,32), so fuel 5 is exact. -/
def refillGo : Nat → Nat → Nat → List Nat → Nat × Nat × Bool × List Nat
  | 0, buf, rem, input => (buf, rem, false, input)
  | fuel + 1, buf, rem, input =>
    if rem < 32 then
      match input with
      | [] => ((if 0 < rem then (buf <<< (32 - rem)) % U32 else buf), rem, true, [])
      | b :: rest => refillGo fuel (((buf <<< 8) % U32) ||| b) (rem + 8) rest
    else (buf, rem, false, input)

/-- `BitstreamReader::refill`: discards the current valid bits
(`remaining = 0`) and refills the accumulator with up to four fresh bytes. -/
def refill (s : Reader) : Reader :=
  let r := refillGo 5 s.buf 0 s.input
  { buf := r.1, remaining := r.2.1, eof := s.eof || r.2.2.1, input := r.2.2.2 }

/-- `BitstreamReader::new`: a fresh reader over a byte source, immediately
refilled.  The only read error a list source can give is end-of-file, which
`refill` absorbs into the `eof` flag, so construction always succeeds. -/
def new (input : List Nat) : Reader :=
  refill { buf := 0, remaining := 0, eof := false, input := input }

/-- `BitstreamReader::get_bits`, including its failure modes: the
`assert!(n <= 32)`, the shift `buf >> (32 - n)` (an out-of-range shift when
`n = 0`), the `UnexpectedEof` error when the `eof` flag is set, and the
`remaining -= taken` subtraction, which underflows when a refill that hit
end-of-source produced fewer than the `remainder` missing bits. -/
def get_bits (n : Nat) (s : Reader) : (Except RErr Nat) × Reader :=
  if 32 < n then (.error .overflow, s)
  else if n ≤ s.remaining then
    if n = 0 then (.error .overflow, s)
    else
      (.ok (s.buf >>> (32 - n)),
        { s with remaining := s.remaining - n,
                 buf := if n = 32 then 0 else (s.buf <<< n) % U32 })
  else if s.eof then (.error .eof, s)
  else
    let initial_bits := s.remaining
    let remainder := n - initial_bits
    let initial := s.buf >>> (32 - initial_bits - remainder)
    let s1 := refill s
    if s1.remaining < remainder then (.error .overflow, s1)
    else
      (.ok (initial ||| (s1.buf >>> (32 - remainder))),
        { s1 with remaining := s1.remaining - remainder,
                  buf := if remainder = 32 then 0 else (s1.buf <<< remainder) % U32 })

/-- `f(n)` — AV1 4.10.2. -/
def f (n : Nat) (s : Reader) : (Except RErr Nat) × Reader :=
  get_bits n s

/-- `f1()` — the helper for `f(1)`, returning `get_bits(1) == 1`. -/
def f1 (s : Reader) : (Except RErr Bool) × Reader :=
  match get_bits 1 s with
  | (.ok v, t) => (.ok (v == 1), t)
  | (.error e, t) => (.error e, t)

/-- Total number of bits the source still holds (valid accumulator bits plus
eight per unread byte); used as loop fuel for `uvlc`. -/
def totalBits (s : Reader) : Nat :=
  s.remaining + 8 * s.input.length

/-- The `uvlc` leading-zero loop: `while !f1()? { leading_zeros += 1 }` with
`leading_zeros : u8`, so the increment past 255 is an overflow panic; after
the loop, `leading_zeros >= 32` saturates to `u32::MAX`, otherwise the result
is `f(leading_zeros) + (1 << leading_zeros) - 1`.  Each non-terminating
iteration consumes one bit from the source, so fuel `totalBits + 1` is never
exhausted; the fuel-0 branch is unreachable. -/
def uvlcGo : Nat → Nat → Reader → (Except RErr Nat) × Reader
  | 0, _, s => (.error .overflow, s)
  | fuel + 1, lz, s =>
    match f1 s with
    | (.error e, t) => (.error e, t)
    | (.ok true, t) =>
      if 32 ≤ lz then (.ok (U32 - 1), t)
      else
        match f lz t with
        | (.error e, u) => (.error e, u)
        | (.ok v, u) => (.ok (v + (1 <<< lz) - 1), u)
    | (.ok false, t) =>
      if lz = 255 then (.error .overflow, t)
      else uvlcGo fuel (lz + 1) t

/-- `uvlc()` — AV1 4.10.3. -/
def uvlc (s : Reader) : (Except RErr Nat) × Reader :=
  uvlcGo (totalBits s + 1) 0 s

/-- `le(n)` — AV1 4.10.4 as implemented: `get_bits(n * 4)`, where `n * 4` is
a `u8` product that panics on overflow. -/
def le (n : Nat) (s : Reader) : (Except RErr Nat) × Reader :=
  if 256 ≤ n * 4 then (.error .overflow, s) else get_bits (n * 4) s

/-- The `leb128` loop `for i in 0..8`: reads a byte, shifts its low seven
bits into place (an out-of-range shift once `i * 7 ≥ 32`, i.e. from the sixth
iteration on), and breaks when the byte's top bit is set.  The first argument
counts the iterations left (`8 - i`). -/
def leb128Go : Nat → Nat → Nat → Reader → (Except RErr Nat) × Reader
  | 0, _, value, s => (.ok value, s)
  | left + 1, i, value, s =>
    match f 8 s with
    | (.error e, t) => (.error e, t)
    | (.ok byte, t) =>
      if 32 ≤ i * 7 then (.error .overflow, t)
      else
        let value1 := value ||| (((byte &&& 0x7f) <<< (i * 7)) % U32)
        if byte &&& 0x80 ≠ 0 then (.ok value1, t)
        else leb128Go left (i + 1) value1 t

/-- `leb128()` — AV1 4.10.5. -/
def leb128 (s : Reader) : (Except RErr Nat) × Reader :=
  leb128Go 8 0 0 s

/-- Reinterpret a `u32` bit pattern as an `i32` value. -/
def toI32 (x : Nat) : Int :=
  if x % U32 < 2 ^ 31 then ((x % U32 : Nat) : Int)
  else ((x % U32 : Nat) : Int) - ((U32 : Nat) : Int)

/-- `i32::overflowing_sub_unsigned` on the underlying bit pattern:
subtraction modulo `2 ^ 32`, never a panic. -/
def wrapSubU (a b : Nat) : Nat :=
  (a + U32 - b % U32) % U32

/-- `su(n)` — AV1 4.10.6: reads an `n`-bit magnitude; when its top bit is set
the result is the magnitude minus twice the sign mask, computed with two
wrapping subtractions on the `i32` bit pattern. -/
def su (n : Nat) (s : Reader) : (Except RErr Int) × Reader :=
  match f n s with
  | (.error e, t) => (.error e, t)
  | (.ok value, t) =>
    let sign_mask := 1 <<< (n - 1)
    if value &&& sign_mask ≠ 0 then
      (.ok (toI32 (wrapSubU (wrapSubU value sign_mask) sign_mask)), t)
    else
      (.ok (toI32 value), t)

/-- `ns(n)` — AV1 4.10.7.  `u8::ilog2` panics on zero; `Nat.log2` is the
same floor base-2 logarithm for positive arguments. -/
def ns (n : Nat) (s : Reader) : (Except RErr Nat) × Reader :=
  if n = 0 then (.error .overflow, s)
  else
    let w := Nat.log2 n + 1
    let m := (1 <<< w) - n
    match f (w - 1) s with
    | (.error e, t) => (.error e, t)
    | (.ok v, t) =>
      if v < m then (.ok v, t)
      else
        match f 1 t with
        | (.error e, u) => (.error e, u)
        | (.ok b, u) => (.ok ((v <<< 1) - m + b), u)

/-! ### Bit-sequence semantics

`bitsOf` abstracts a reader state to the sequence of bits it will deliver:
the valid (left-aligned) accumulator bits followed by the bits of the unread
source bytes, most significant bit of each byte first. -/

/-- The `w` low bits of `x`, most significant first. -/
def natBitsBE (w x : Nat) : List Bool :=
  (List.range w).map (fun i => x.testBit (w - 1 - i))

/-- The eight bits of a byte, most significant first. -/
def byteBits (b : Nat) : List Bool := natBitsBE 8 b

/-- All bits of a byte list, in stream order. -/
def bytesBits (l : List Nat) : List Bool := (l.map byteBits).flatten

/-- The number whose big-endian bit expansion is `l`. -/
def bitsToNat (l : List Bool) : Nat :=
  l.foldl (fun acc b => 2 * acc + (if b then 1 else 0)) 0

/-- The number whose big-endian byte expansion is `l`. -/
def beValue (l : List Nat) : Nat :=
  l.foldl (fun acc b => 256 * acc + b) 0

/-- The bit stream a reader state still holds. -/
def bitsOf (s : Reader) : List Bool :=
  natBitsBE s.remaining (s.buf >>> (32 - s.remaining)) ++ bytesBits s.input

/-- Well-formedness of a reader state, maintained by every successful
operation: the valid-bit count fits the accumulator, the accumulator is a
`u32` whose bits below the valid region are zero, the `eof` flag implies an
exhausted source, and the source holds bytes. -/
def Inv (s : Reader) : Prop :=
  s.remaining ≤ 32 ∧ s.buf < U32 ∧ s.buf % 2 ^ (32 - s.remaining) = 0 ∧
    (s.eof = true → s.input = []) ∧ ∀ b ∈ s.input, b < 256

instance (s : Reader) : Decidable (Inv s) := by
  unfold Inv
  infer_instance

/-- The cursor operations named by the spec. -/
inductive Op where
  | opF (n : Nat) : Op
  | opF1 : Op
  | opUvlc : Op
  | opLe (n : Nat) : Op
  | opLeb128 : Op
  | opSu (n : Nat) : Op
  | opNs (n : Nat) : Op

/-- Run one operation, keeping only success/failure and the cursor state. -/
def stepOp : Op → Reader → (Except RErr Unit) × Reader
  | .opF n, s => ((f n s).1.map (fun _ => ()), (f n s).2)
  | .opF1, s => ((f1 s).1.map (fun _ => ()), (f1 s).2)
  | .opUvlc, s => ((uvlc s).1.map (fun _ => ()), (uvlc s).2)
  | .opLe n, s => ((le n s).1.map (fun _ => ()), (le n s).2)
  | .opLeb128, s => ((leb128 s).1.map (fun _ => ()), (leb128 s).2)
  | .opSu n, s => ((su n s).1.map (fun _ => ()), (su n s).2)
  | .opNs n, s => ((ns n s).1.map (fun _ => ()), (ns n s).2)

/-- Run a sequence of operations, stopping at the first failure. -/
def runOps : List Op → Reader → (Except RErr Unit) × Reader
  | [], s => (.ok (), s)
  | o :: os, s =>
    match stepOp o s with
    | (.ok _, t) => runOps os t
    | (.error e, t) => (.error e, t)

/-- The value denoted by the `n`-bit magnitude `v` under the sign
reinterpretation of `su(n)`: the magnitude minus `2 ^ n` when its top bit is
set, otherwise the magnitude itself. -/
def suDecode (n v : Nat) : Int :=
  if v.testBit (n - 1) then (v : Int) - 2 ^ n else (v : Int)

/-! ### OBU type constants (`src/av1/obu.rs`) -/

def OBU_SEQUENCE_HEADER : Nat := 1

def OBU_TEMPORAL_DELIMITER : Nat := 2

def OBU_FRAME_HEADER : Nat := 3

def OBU_TILE_GROUP : Nat := 4

def OBU_METADATA : Nat := 5

def OBU_FRAME : Nat := 6

def OBU_REDUNDANT_FRAME_HEADER : Nat := 7

def OBU_TILE_LIST : Nat := 8

def OBU_PADDING : Nat := 15

/-- Modelled from the spec: the closed `ObuType` tagged set of spec section 3
(SequenceHeader, TemporalDelimiter, FrameHeader, TileGroup, Metadata, Frame,
RedundantFrameHeader, TileList, Padding, and a catch-all Reserved).  The
`ObuType` declaration in `src/av1/obu.rs` is incomplete: it declares only a
`SequenceHeader` variant and no framer mapping exists in the source. -/
inductive ObuType where
  | SequenceHeader : ObuType
  | TemporalDelimiter : ObuType
  | FrameHeader : ObuType
  | TileGroup : ObuType
  | Metadata : ObuType
  | Frame : ObuType
  | RedundantFrameHeader : ObuType
  | TileList : ObuType
  | Padding : ObuType
  | Reserved : ObuType
deriving DecidableEq, Repr

/-- Modelled from the spec: the OBU framer maps the 4-bit type tag through
the numeric constants of `src/av1/obu.rs` onto the closed `ObuType` set, with
every unassigned tag falling through to `Reserved` (spec section 4.2). -/
def obuTypeOfTag (tag : Nat) : ObuType :=
  if tag = OBU_SEQUENCE_HEADER then .SequenceHeader
  else if tag = OBU_TEMPORAL_DELIMITER then .TemporalDelimiter
  else if tag = OBU_FRAME_HEADER then .FrameHeader
  else if tag = OBU_TILE_GROUP then .TileGroup
  else if tag = OBU_METADATA then .Metadata
  else if tag = OBU_FRAME then .Frame
  else if tag = OBU_REDUNDANT_FRAME_HEADER then .RedundantFrameHeader
  else if tag = OBU_TILE_LIST then .TileList
  else if tag = OBU_PADDING then .Padding
  else .Reserved

theorem natBitsBE_length (w x : Nat) : (natBitsBE w x).length = w := by
  simp [natBitsBE]

theorem natBitsBE_succ (w x : Nat) :
    natBitsBE (w + 1) x = x.testBit w :: natBitsBE w x := by
  simp only [natBitsBE, List.range_succ_eq_map, List.map_cons, List.map_map]
  refine congrArg₂ _ (congrArg _ (by omega)) (List.map_congr_left ?_)
  intro i _
  simp only [Function.comp_apply]
  exact congrArg _ (by omega)

theorem bitsToNat_cons_aux (l : List Bool) :
    ∀ a : Nat, l.foldl (fun acc b => 2 * acc + (if b then 1 else 0)) a =
      a * 2 ^ l.length + bitsToNat l := by
  induction l with
  | nil => simp [bitsToNat]
  | cons b t ih =>
    intro a
    have h1 := ih (2 * a + (if b then 1 else 0))
    have h2 := ih (if b then (1 : Nat) else 0)
    simp only [bitsToNat, List.foldl_cons, List.length_cons,
      Nat.mul_zero, Nat.zero_add] at *
    rw [h1, h2]
    ring

theorem bitsToNat_cons (b : Bool) (l : List Bool) :
    bitsToNat (b :: l) = (if b then 1 else 0) * 2 ^ l.length + bitsToNat l := by
  simp only [bitsToNat, List.foldl_cons, Nat.mul_zero, Nat.zero_add]
  exact bitsToNat_cons_aux l _

theorem bitsToNat_append (l₁ l₂ : List Bool) :
    bitsToNat (l₁ ++ l₂) = bitsToNat l₁ * 2 ^ l₂.length + bitsToNat l₂ := by
  induction l₁ with
  | nil => simp [bitsToNat]
  | cons b t ih =>
    rw [List.cons_append, bitsToNat_cons, bitsToNat_cons, ih, List.length_append]
    ring

theorem bitsToNat_lt (l : List Bool) : bitsToNat l < 2 ^ l.length := by
  induction l with
  | nil => simp [bitsToNat]
  | cons b t ih =>
    rw [bitsToNat_cons, List.length_cons, pow_succ]
    rcases b with _ | _ <;> simp <;> omega

theorem bitsToNat_natBitsBE (w x : Nat) :
    bitsToNat (natBitsBE w x) = x % 2 ^ w := by
  induction w with
  | zero => simp [natBitsBE, bitsToNat, Nat.mod_one]
  | succ w ih =>
    rw [natBitsBE_succ, bitsToNat_cons, natBitsBE_length, ih]
    have hmm : x % 2 ^ (w + 1) = x % 2 ^ w + 2 ^ w * (x / 2 ^ w % 2) := by
      have h : (2 : Nat) ^ (w + 1) = 2 ^ w * 2 := by ring
      rw [h, Nat.mod_mul]
    have htb : x.testBit w = decide (x / 2 ^ w % 2 = 1) := Nat.testBit_to_div_mod
    have h2 : x / 2 ^ w % 2 = 0 ∨ x / 2 ^ w % 2 = 1 := by omega
    rcases h2 with h2 | h2
    · simp only [htb, h2, hmm]
      simp
    · simp only [htb, h2, hmm]
      simp
      omega

theorem natBitsBE_mod (w x : Nat) : natBitsBE w (x % 2 ^ w) = natBitsBE w x := by
  refine List.map_congr_left ?_
  intro i hi
  rw [List.mem_range] at hi
  rw [Nat.testBit_mod_two_pow]
  have : w - 1 - i < w := by omega
  simp [this]

theorem natBitsBE_split {m w : Nat} (h : m ≤ w) (x : Nat) :
    natBitsBE w x = natBitsBE m (x >>> (w - m)) ++ natBitsBE (w - m) x := by
  have hw : List.range w = List.range m ++ (List.range (w - m)).map (m + ·) := by
    rw [← List.range_add]
    exact congrArg _ (by omega)
  simp only [natBitsBE]
  rw [hw, List.map_append, List.map_map]
  refine congrArg₂ _ (List.map_congr_left ?_) (List.map_congr_left ?_)
  · intro i hi
    rw [List.mem_range] at hi
    rw [Nat.testBit_shiftRight]
    exact congrArg _ (by omega)
  · intro i hi
    rw [List.mem_range] at hi
    simp only [Function.comp_apply]
    exact congrArg _ (by omega)

theorem natBitsBE_take {m w : Nat} (h : m ≤ w) (x : Nat) :
    (natBitsBE w x).take m = natBitsBE m (x >>> (w - m)) := by
  rw [natBitsBE_split h x, List.take_left' (natBitsBE_length m _)]

theorem natBitsBE_drop {m w : Nat} (h : m ≤ w) (x : Nat) :
    (natBitsBE w x).drop m = natBitsBE (w - m) x := by
  rw [natBitsBE_split h x, List.drop_left' (natBitsBE_length m _)]

theorem beValue_cons_aux (l : List Nat) :
    ∀ a : Nat, l.foldl (fun acc b => 256 * acc + b) a =
      a * 256 ^ l.length + beValue l := by
  induction l with
  | nil => simp [beValue]
  | cons b t ih =>
    intro a
    have h1 := ih (256 * a + b)
    have h2 := ih b
    simp only [beValue, List.foldl_cons, List.length_cons,
      Nat.mul_zero, Nat.zero_add] at *
    rw [h1, h2]
    ring

theorem beValue_cons (b : Nat) (l : List Nat) :
    beValue (b :: l) = b * 256 ^ l.length + beValue l := by
  simp only [beValue, List.foldl_cons, Nat.mul_zero, Nat.zero_add]
  exact beValue_cons_aux l _

theorem beValue_lt (l : List Nat) (h : ∀ b ∈ l, b < 256) :
    beValue l < 256 ^ l.length := by
  induction l with
  | nil => simp [beValue]
  | cons b t ih =>
    have hb : b < 256 := h b (by simp)
    have ht := ih (fun x hx => h x (by simp [hx]))
    rw [beValue_cons, List.length_cons, pow_succ, mul_comm (256 ^ t.length) 256]
    calc b * 256 ^ t.length + beValue t
        < b * 256 ^ t.length + 256 ^ t.length := by omega
      _ = (b + 1) * 256 ^ t.length := by ring
      _ ≤ 256 * 256 ^ t.length := by
          exact Nat.mul_le_mul_right _ (by omega)

theorem two_pow_eight_mul (k : Nat) : (256 : Nat) ^ k = 2 ^ (8 * k) := by
  rw [show (256 : Nat) = 2 ^ 8 by norm_num, ← pow_mul]

theorem bytesBits_eq (l : List Nat) (h : ∀ b ∈ l, b < 256) :
    bytesBits l = natBitsBE (8 * l.length) (beValue l) := by
  induction l with
  | nil => simp [bytesBits, natBitsBE]
  | cons b t ih =>
    have ht : ∀ x ∈ t, x < 256 := fun x hx => h x (by simp [hx])
    have hlt := beValue_lt t ht
    rw [two_pow_eight_mul] at hlt
    have h8 : 8 * (b :: t).length - 8 = 8 * t.length := by
      simp only [List.length_cons]
      ring_nf
      omega
    have hsplit := natBitsBE_split (m := 8) (w := 8 * (b :: t).length)
      (by simp only [List.length_cons]; omega) (beValue (b :: t))
    have hhi : beValue (b :: t) >>> (8 * (b :: t).length - 8) = b := by
      rw [h8, beValue_cons, Nat.shiftRight_eq_div_pow, ← two_pow_eight_mul,
        mul_comm b (256 ^ t.length), Nat.mul_add_div (by positivity),
        Nat.div_eq_of_lt (beValue_lt t ht), Nat.add_zero]
    have hlo : natBitsBE (8 * (b :: t).length - 8) (beValue (b :: t)) =
        natBitsBE (8 * t.length) (beValue t) := by
      rw [h8, ← natBitsBE_mod (8 * t.length) (beValue (b :: t)),
        ← natBitsBE_mod (8 * t.length) (beValue t)]
      refine congrArg _ ?_
      rw [beValue_cons, ← two_pow_eight_mul, Nat.add_comm,
        Nat.add_mul_mod_self_right]
    rw [bytesBits, List.map_cons, List.flatten_cons, hsplit, hhi, hlo]
    rw [show ((t.map byteBits).flatten : List Bool) = bytesBits t from rfl, ih ht]
    rfl

/-! ### Closed form of `refill` -/

/-- Shifting one byte into the accumulator: `(buf << 8) | byte`. -/
theorem shiftInByte (x b : Nat) (hb : b < 256) :
    ((x <<< 8) % U32) ||| b = 256 * (x % 2 ^ 24) + b := by
  have h1 : (x <<< 8) % U32 = 2 ^ 8 * (x % 2 ^ 24) := by
    rw [Nat.shiftLeft_eq, U32,
      show (2 : Nat) ^ 32 = 2 ^ 8 * 2 ^ 24 by norm_num,
      mul_comm x (2 ^ 8), Nat.mul_mod_mul_left]
  rw [h1, ← Nat.mul_add_lt_is_or (by omega : b < 2 ^ 8)]

/-- Left shift of the `u32` accumulator keeps the low bits of the shifted
value in the high positions. -/
theorem shl_mod_U32 (x m : Nat) (hm : m ≤ 32) :
    (x <<< m) % U32 = 2 ^ m * (x % 2 ^ (32 - m)) := by
  rw [Nat.shiftLeft_eq, U32,
    show (2 : Nat) ^ 32 = 2 ^ m * 2 ^ (32 - m) by
      rw [← pow_add]; exact congrArg _ (by omega),
    mul_comm x (2 ^ m), Nat.mul_mod_mul_left]

theorem refillGo_nil (buf : Nat) : refillGo 5 buf 0 [] = (buf, 0, true, []) := by
  simp [refillGo]

/-- The refill loop on a nonempty source reads `min 4 len` bytes and places
them at the top of the accumulator. -/
theorem refillGo_eq (buf : Nat) (input : List Nat) (h : ∀ b ∈ input, b < 256)
    (hne : input ≠ []) :
    refillGo 5 buf 0 input =
      (beValue (input.take (min 4 input.length)) * 2 ^ (32 - 8 * min 4 input.length),
       8 * min 4 input.length,
       decide (input.length < 4),
       input.drop (min 4 input.length)) := by
  rcases input with _ | ⟨b0, t0⟩
  · exact absurd rfl hne
  have hb0 : b0 < 256 := h b0 (by simp)
  rcases t0 with _ | ⟨b1, t1⟩
  · simp only [refillGo, shiftInByte _ _ hb0]
    norm_num [beValue, shl_mod_U32 _ 24 (by omega)]
    omega
  have hb1 : b1 < 256 := h b1 (by simp)
  rcases t1 with _ | ⟨b2, t2⟩
  · simp only [refillGo, shiftInByte _ _ hb0]
    rw [shiftInByte _ _ hb1]
    norm_num [beValue, shl_mod_U32 _ 16 (by omega)]
    omega
  have hb2 : b2 < 256 := h b2 (by simp)
  rcases t2 with _ | ⟨b3, t3⟩
  · simp only [refillGo, shiftInByte _ _ hb0]
    rw [shiftInByte _ _ hb1, shiftInByte _ _ hb2]
    norm_num [beValue, shl_mod_U32 _ 8 (by omega)]
    omega
  have hb3 : b3 < 256 := h b3 (by simp)
  simp only [refillGo, shiftInByte _ _ hb0]
  rw [shiftInByte _ _ hb1, shiftInByte _ _ hb2, shiftInByte _ _ hb3]
  norm_num [beValue]
  omega

/-- `refill` on an exhausted source only sets the flag. -/
theorem refill_nil (s : Reader) (h : s.input = []) :
    refill s = ⟨s.buf, 0, true, []⟩ := by
  simp [refill, h, refillGo_nil]

/-- `refill` on a nonempty source. -/
theorem refill_eq (s : Reader) (h : ∀ b ∈ s.input, b < 256) (hne : s.input ≠ []) :
    refill s =
      ⟨beValue (s.input.take (min 4 s.input.length)) * 2 ^ (32 - 8 * min 4 s.input.length),
       8 * min 4 s.input.length,
       s.eof || decide (s.input.length < 4),
       s.input.drop (min 4 s.input.length)⟩ := by
  simp [refill, refillGo_eq s.buf s.input h hne]

/-! ### The stream view of `get_bits` -/

theorem bytesBits_length (l : List Nat) : (bytesBits l).length = 8 * l.length := by
  induction l with
  | nil => simp [bytesBits]
  | cons b t ih =>
    simp only [bytesBits, List.map_cons, List.flatten_cons, List.length_append,
      List.length_cons] at *
    rw [ih]
    simp [byteBits, natBitsBE_length]
    ring

theorem bitsOf_length (s : Reader) : (bitsOf s).length = totalBits s := by
  simp [bitsOf, totalBits, natBitsBE_length, bytesBits_length]

theorem beValue_append (l₁ l₂ : List Nat) :
    beValue (l₁ ++ l₂) = beValue l₁ * 256 ^ l₂.length + beValue l₂ := by
  induction l₁ with
  | nil => simp [beValue]
  | cons b t ih =>
    rw [List.cons_append, beValue_cons, beValue_cons, ih, List.length_append]
    ring

/-- `get_bits` when the accumulator already holds the `n` requested bits. -/
theorem get_bits_ok_left (n : Nat) (s : Reader) (hInv : Inv s) (h1 : 1 ≤ n)
    (hcase : n ≤ s.remaining) :
    ∃ s₂, get_bits n s = (.ok (bitsToNat ((bitsOf s).take n)), s₂) ∧ Inv s₂ ∧
      bitsOf s₂ = (bitsOf s).drop n := by
  obtain ⟨hR, hBuf, hJ, hEof, hBytes⟩ := hInv
  have h32 : n ≤ 32 := le_trans hcase hR
  have hv : s.buf >>> (32 - s.remaining) * 2 ^ (32 - s.remaining) = s.buf := by
    rw [Nat.shiftRight_eq_div_pow]
    exact Nat.div_mul_cancel (Nat.dvd_of_mod_eq_zero hJ)
  set v := s.buf >>> (32 - s.remaining) with hvdef
  have hvlt : v < 2 ^ s.remaining := by
    rw [hvdef, Nat.shiftRight_eq_div_pow]
    rw [Nat.div_lt_iff_lt_mul (Nat.pos_pow_of_pos _ (by omega))]
    calc s.buf < 2 ^ 32 := hBuf
      _ = 2 ^ s.remaining * 2 ^ (32 - s.remaining) := by
          rw [← pow_add]; exact congrArg _ (by omega)
  -- the split of the accumulator bits at position n
  have hsplit : natBitsBE s.remaining v =
      natBitsBE n (v >>> (s.remaining - n)) ++ natBitsBE (s.remaining - n) v :=
    natBitsBE_split hcase v
  have hhi : v >>> (s.remaining - n) = s.buf >>> (32 - n) := by
    rw [hvdef, Nat.shiftRight_eq_div_pow, Nat.shiftRight_eq_div_pow,
      Nat.shiftRight_eq_div_pow, Nat.div_div_eq_div_mul, ← pow_add]
    exact congrArg (fun t => s.buf / 2 ^ t) (by omega)
  have hreslt : s.buf >>> (32 - n) < 2 ^ n := by
    rw [Nat.shiftRight_eq_div_pow,
      Nat.div_lt_iff_lt_mul (Nat.pos_pow_of_pos _ (by omega))]
    calc s.buf < 2 ^ 32 := hBuf
      _ = 2 ^ n * 2 ^ (32 - n) := by rw [← pow_add]; exact congrArg _ (by omega)
  have hval : bitsToNat ((bitsOf s).take n) = s.buf >>> (32 - n) := by
    rw [bitsOf, hsplit, List.append_assoc, List.take_left' (natBitsBE_length n _),
      bitsToNat_natBitsBE, hhi, Nat.mod_eq_of_lt hreslt]
  have hbuf2 : (if n = 32 then 0 else (s.buf <<< n) % U32) =
      v % 2 ^ (s.remaining - n) * 2 ^ (32 - (s.remaining - n)) := by
    by_cases h32e : n = 32
    · have hRe : s.remaining = 32 := by omega
      rw [if_pos h32e, h32e, hRe]
      simp [Nat.mod_one]
    · rw [if_neg h32e, shl_mod_U32 _ _ h32, ← hv,
        show (2 : Nat) ^ (32 - n) = 2 ^ (s.remaining - n) * 2 ^ (32 - s.remaining) by
          rw [← pow_add]; exact congrArg _ (by omega),
        Nat.mul_mod_mul_right,
        show (2 : Nat) ^ (32 - (s.remaining - n)) = 2 ^ n * 2 ^ (32 - s.remaining) by
          rw [← pow_add]; exact congrArg _ (by omega)]
      ring
  refine ⟨Reader.mk (if n = 32 then 0 else (s.buf <<< n) % U32)
      (s.remaining - n) s.eof s.input, ?_, ?_, ?_⟩
  · simp only [get_bits]
    rw [if_neg (by omega), if_pos hcase, if_neg (by omega), hval]
  · refine ⟨by simp; omega, ?_, ?_, fun he => hEof he, hBytes⟩
    · simp only [hbuf2]
      calc v % 2 ^ (s.remaining - n) * 2 ^ (32 - (s.remaining - n))
          < 2 ^ (s.remaining - n) * 2 ^ (32 - (s.remaining - n)) := by
            exact (Nat.mul_lt_mul_right (Nat.pos_pow_of_pos _ (by omega))).mpr
              (Nat.mod_lt _ (Nat.pos_pow_of_pos _ (by omega)))
        _ = U32 := by rw [U32, ← pow_add]; exact congrArg _ (by omega)
    · simp only [hbuf2]
      exact Nat.mul_mod_left _ _
  · simp only [bitsOf]
    rw [hsplit, List.append_assoc, List.drop_left' (natBitsBE_length n _)]
    refine congrArg₂ _ ?_ rfl
    simp only [hbuf2]
    rw [Nat.shiftRight_eq_div_pow,
      Nat.mul_div_cancel _ (Nat.pos_pow_of_pos _ (by omega))]
    exact natBitsBE_mod _ _

/-- `get_bits` across a refill boundary: the valid accumulator bits become
the high part of the result and the missing low part is taken from the
freshly refilled accumulator. -/
theorem get_bits_ok_refill (n : Nat) (s : Reader) (hInv : Inv s) (h32 : n ≤ 32)
    (hcase : s.remaining < n) (hav : n ≤ totalBits s) :
    ∃ s₂, get_bits n s = (.ok (bitsToNat ((bitsOf s).take n)), s₂) ∧ Inv s₂ ∧
      bitsOf s₂ = (bitsOf s).drop n := by
  obtain ⟨hR, hBuf, hJ, hEof, hBytes⟩ := hInv
  rw [totalBits] at hav
  have hlen1 : 1 ≤ s.input.length := by omega
  have heof : s.eof = false := by
    cases he : s.eof
    · rfl
    · rw [hEof he] at hlen1
      simp at hlen1
  have hne : s.input ≠ [] := by
    intro h0
    rw [h0] at hlen1
    simp at hlen1
  set len := s.input.length with hlendef
  set k := min 4 len with hkdef
  set rm := n - s.remaining with hrmdef
  set w := beValue (s.input.take k) with hwdef
  set v := s.buf >>> (32 - s.remaining) with hvdef
  have hk1 : 1 ≤ k := by omega
  have hk4 : k ≤ 4 := by omega
  have hkl : k ≤ len := by omega
  have hrm1 : 1 ≤ rm := by omega
  have hrm32 : rm ≤ 32 := by omega
  have hrmk : rm ≤ 8 * k := by omega
  have htakelen : (s.input.take k).length = k := by
    rw [List.length_take]
    omega
  have hwlt : w < 2 ^ (8 * k) := by
    have h := beValue_lt (s.input.take k) (fun b hb => hBytes b (List.take_subset _ _ hb))
    rw [htakelen, two_pow_eight_mul] at h
    exact h
  have hrefill := refill_eq s hBytes hne
  rw [heof, ← hlendef, ← hkdef, ← hwdef, Bool.false_or] at hrefill
  have hv : v * 2 ^ (32 - s.remaining) = s.buf := by
    rw [hvdef, Nat.shiftRight_eq_div_pow]
    exact Nat.div_mul_cancel (Nat.dvd_of_mod_eq_zero hJ)
  have hvlt : v < 2 ^ s.remaining := by
    rw [hvdef, Nat.shiftRight_eq_div_pow,
      Nat.div_lt_iff_lt_mul (Nat.pos_pow_of_pos _ (by omega))]
    calc s.buf < 2 ^ 32 := hBuf
      _ = 2 ^ s.remaining * 2 ^ (32 - s.remaining) := by
          rw [← pow_add]; exact congrArg _ (by omega)
  have hinit : s.buf >>> (32 - n) = v * 2 ^ rm := by
    rw [← hv, Nat.shiftRight_eq_div_pow,
      show (2 : Nat) ^ (32 - s.remaining) = 2 ^ rm * 2 ^ (32 - n) by
        rw [← pow_add]; exact congrArg _ (by omega),
      ← mul_assoc]
    exact Nat.mul_div_cancel _ (Nat.pos_pow_of_pos _ (by omega))
  have hsec : (w * 2 ^ (32 - 8 * k)) >>> (32 - rm) = w / 2 ^ (8 * k - rm) := by
    rw [Nat.shiftRight_eq_div_pow,
      show (2 : Nat) ^ (32 - rm) = 2 ^ (32 - 8 * k) * 2 ^ (8 * k - rm) by
        rw [← pow_add]; exact congrArg _ (by omega),
      ← Nat.div_div_eq_div_mul,
      Nat.mul_div_cancel _ (Nat.pos_pow_of_pos _ (by omega))]
  have hseclt : w / 2 ^ (8 * k - rm) < 2 ^ rm := by
    rw [Nat.div_lt_iff_lt_mul (Nat.pos_pow_of_pos _ (by omega))]
    calc w < 2 ^ (8 * k) := hwlt
      _ = 2 ^ rm * 2 ^ (8 * k - rm) := by
          rw [← pow_add]; exact congrArg _ (by omega)
  have hResOr : v * 2 ^ rm ||| (w / 2 ^ (8 * k - rm)) =
      2 ^ rm * v + w / 2 ^ (8 * k - rm) := by
    rw [mul_comm v, ← Nat.mul_add_lt_is_or hseclt]
  -- decomposition of the source value at the refill boundary
  have hbdlt : beValue (s.input.drop k) < 2 ^ (8 * (len - k)) := by
    rw [← two_pow_eight_mul, ← show (s.input.drop k).length = len - k by
      rw [List.length_drop]]
    exact beValue_lt _ (fun b hb => hBytes b (List.drop_subset _ _ hb))
  have hBVsplit : beValue s.input =
      2 ^ (8 * (len - k)) * w + beValue (s.input.drop k) := by
    conv_lhs => rw [← List.take_append_drop k s.input]
    rw [beValue_append, List.length_drop, ← hlendef, ← hwdef, two_pow_eight_mul,
      mul_comm w]
  have hBVwdiv : beValue s.input / 2 ^ (8 * (len - k)) = w := by
    rw [hBVsplit, Nat.mul_add_div (Nat.pos_pow_of_pos _ (by omega)),
      Nat.div_eq_of_lt hbdlt, Nat.add_zero]
  have hBVw : beValue s.input >>> (8 * (len - k)) = w := by
    rw [Nat.shiftRight_eq_div_pow]
    exact hBVwdiv
  have hBVshift : beValue s.input >>> (8 * len - rm) = w / 2 ^ (8 * k - rm) := by
    rw [Nat.shiftRight_eq_div_pow,
      show (2 : Nat) ^ (8 * len - rm) = 2 ^ (8 * (len - k)) * 2 ^ (8 * k - rm) by
        rw [← pow_add]; exact congrArg _ (by omega),
      ← Nat.div_div_eq_div_mul, hBVwdiv]
  have hval : bitsToNat ((bitsOf s).take n) = 2 ^ rm * v + w / 2 ^ (8 * k - rm) := by
    rw [bitsOf, bytesBits_eq s.input hBytes, ← hvdef, ← hlendef,
      List.take_append_eq_append_take,
      List.take_of_length_le (show (natBitsBE s.remaining v).length ≤ n by
        rw [natBitsBE_length]; omega), natBitsBE_length,
      natBitsBE_take (by omega), bitsToNat_append, bitsToNat_natBitsBE,
      bitsToNat_natBitsBE, natBitsBE_length, Nat.mod_eq_of_lt hvlt, ← hrmdef,
      hBVshift, Nat.mod_eq_of_lt hseclt, mul_comm v]
  have hbuf2 : (if rm = 32 then 0 else ((w * 2 ^ (32 - 8 * k)) <<< rm) % U32) =
      w % 2 ^ (8 * k - rm) * 2 ^ (32 - (8 * k - rm)) := by
    by_cases hrme : rm = 32
    · have hke : k = 4 := by omega
      rw [if_pos hrme, hrme, hke]
      simp [Nat.mod_one]
    · rw [if_neg hrme, shl_mod_U32 _ _ hrm32,
        show (2 : Nat) ^ (32 - rm) = 2 ^ (8 * k - rm) * 2 ^ (32 - 8 * k) by
          rw [← pow_add]; exact congrArg _ (by omega),
        Nat.mul_mod_mul_right,
        show (2 : Nat) ^ (32 - (8 * k - rm)) = 2 ^ rm * 2 ^ (32 - 8 * k) by
          rw [← pow_add]; exact congrArg _ (by omega)]
      ring
  have hX : (w % 2 ^ (8 * k - rm) * 2 ^ (32 - (8 * k - rm))) >>> (32 - (8 * k - rm)) =
      w % 2 ^ (8 * k - rm) := by
    rw [Nat.shiftRight_eq_div_pow]
    exact Nat.mul_div_cancel _ (Nat.pos_pow_of_pos _ (by omega))
  have hBVmod : beValue s.input % 2 ^ (8 * (len - k)) = beValue (s.input.drop k) := by
    rw [hBVsplit, Nat.mul_add_mod, Nat.mod_eq_of_lt hbdlt]
  have hdropbits : bytesBits (s.input.drop k) =
      natBitsBE (8 * (len - k)) (beValue s.input) := by
    rw [bytesBits_eq _ (fun b hb => hBytes b (List.drop_subset _ _ hb)),
      List.length_drop, ← hlendef, ← hBVmod, natBitsBE_mod]
  have hbits : natBitsBE (8 * k - rm) (w % 2 ^ (8 * k - rm)) ++
      bytesBits (s.input.drop k) = (bitsOf s).drop n := by
    rw [bitsOf, bytesBits_eq s.input hBytes, ← hvdef, ← hlendef,
      List.drop_append_eq_append_drop,
      List.drop_of_length_le (show (natBitsBE s.remaining v).length ≤ n by
        rw [natBitsBE_length]; omega), natBitsBE_length,
      List.nil_append, natBitsBE_drop (by omega), ← hrmdef,
      natBitsBE_split (show 8 * k - rm ≤ 8 * len - rm by omega),
      show 8 * len - rm - (8 * k - rm) = 8 * (len - k) by omega, hBVw]
    exact congrArg₂ _ (natBitsBE_mod _ _) hdropbits
  refine ⟨Reader.mk (if rm = 32 then 0 else ((w * 2 ^ (32 - 8 * k)) <<< rm) % U32)
      (8 * k - rm) (decide (len < 4)) (s.input.drop k), ?_, ?_, ?_⟩
  · simp only [get_bits, hrefill]
    rw [if_neg (by omega : ¬ 32 < n), if_neg (by omega : ¬ n ≤ s.remaining),
      heof, if_neg (by simp : ¬ (false = true)),
      if_neg (by omega : ¬ 8 * k < n - s.remaining), ← hrmdef,
      show 32 - s.remaining - rm = 32 - n by omega, hinit, hsec, hResOr, hval]
  · refine ⟨?_, ?_, ?_, ?_, fun b hb => hBytes b (List.drop_subset _ _ hb)⟩
    · show 8 * k - rm ≤ 32
      omega
    · show (if rm = 32 then 0 else ((w * 2 ^ (32 - 8 * k)) <<< rm) % U32) < U32
      rw [hbuf2]
      calc w % 2 ^ (8 * k - rm) * 2 ^ (32 - (8 * k - rm))
          < 2 ^ (8 * k - rm) * 2 ^ (32 - (8 * k - rm)) := by
            exact (Nat.mul_lt_mul_right (Nat.pos_pow_of_pos _ (by omega))).mpr
              (Nat.mod_lt _ (Nat.pos_pow_of_pos _ (by omega)))
        _ = U32 := by rw [U32, ← pow_add]; exact congrArg _ (by omega)
    · show (if rm = 32 then 0 else ((w * 2 ^ (32 - 8 * k)) <<< rm) % U32) %
        2 ^ (32 - (8 * k - rm)) = 0
      rw [hbuf2]
      exact Nat.mul_mod_left _ _
    · intro he
      simp only [decide_eq_true_eq] at he
      exact List.drop_eq_nil_of_le (by omega)
  · simp only [bitsOf]
    rw [hbuf2, hX]
    exact hbits

/-- The stream view of `get_bits`: with enough bits available it returns the
next `n` bits of the stream and advances past them, preserving the
invariant. -/
theorem get_bits_ok (n : Nat) (s : Reader) (hInv : Inv s) (h1 : 1 ≤ n) (h32 : n ≤ 32)
    (hav : n ≤ totalBits s) :
    ∃ s₂, get_bits n s = (.ok (bitsToNat ((bitsOf s).take n)), s₂) ∧ Inv s₂ ∧
      bitsOf s₂ = (bitsOf s).drop n := by
  by_cases hcase : n ≤ s.remaining
  · exact get_bits_ok_left n s hInv h1 hcase
  · exact get_bits_ok_refill n s hInv h32 (by omega) hav

/-- `f` is `get_bits`. -/
theorem f_ok (n : Nat) (s : Reader) (hInv : Inv s) (h1 : 1 ≤ n) (h32 : n ≤ 32)
    (hav : n ≤ totalBits s) :
    ∃ s₂, f n s = (.ok (bitsToNat ((bitsOf s).take n)), s₂) ∧ Inv s₂ ∧
      bitsOf s₂ = (bitsOf s).drop n :=
  get_bits_ok n s hInv h1 h32 hav

/-- `f1` returns exactly the next bit of the stream. -/
theorem f1_ok (s : Reader) (hInv : Inv s) (b : Bool) (rest : List Bool)
    (hbits : bitsOf s = b :: rest) :
    ∃ s₂, f1 s = (.ok b, s₂) ∧ Inv s₂ ∧ bitsOf s₂ = rest := by
  have hav : 1 ≤ totalBits s := by
    rw [← bitsOf_length, hbits]
    simp
  obtain ⟨s₂, hgb, hI, hb⟩ := get_bits_ok 1 s hInv (le_refl 1) (by omega) hav
  rw [hbits] at hgb hb
  refine ⟨s₂, ?_, hI, by simpa using hb⟩
  simp only [f1, hgb]
  cases b <;> simp [bitsToNat]

/-- Any successful `get_bits` call preserves the invariant. -/
theorem get_bits_succ_inv (n : Nat) (s : Reader) (hInv : Inv s) (v : Nat)
    (s₂ : Reader) (h : get_bits n s = (.ok v, s₂)) : Inv s₂ := by
  have hBytes := hInv.2.2.2.2
  have hEof := hInv.2.2.2.1
  by_cases h32 : 32 < n
  · rw [get_bits, if_pos h32] at h
    exact absurd (congrArg Prod.fst h) (by simp)
  by_cases hrem : n ≤ s.remaining
  · by_cases h0 : n = 0
    · rw [get_bits, if_neg h32, if_pos hrem, if_pos h0] at h
      exact absurd (congrArg Prod.fst h) (by simp)
    · obtain ⟨s₃, heq, hI, _⟩ := get_bits_ok n s hInv (by omega) (by omega)
        (by rw [totalBits]; omega)
      rw [h] at heq
      rw [show s₂ = s₃ from congrArg Prod.snd heq]
      exact hI
  by_cases heof : s.eof
  · rw [get_bits, if_neg h32, if_neg hrem, if_pos heof] at h
    exact absurd (congrArg Prod.fst h) (by simp)
  have hne : s.input ≠ [] := by
    intro h0
    have : refill s = ⟨s.buf, 0, true, []⟩ := refill_nil s h0
    rw [get_bits, if_neg h32, if_neg hrem, if_neg heof] at h
    simp only [this] at h
    rw [if_pos (by omega)] at h
    exact absurd (congrArg Prod.fst h) (by simp)
  have hlen1 : 1 ≤ s.input.length := by
    cases hi : s.input
    · exact absurd hi hne
    · simp [hi]
  have hrefill := refill_eq s hBytes hne
  have hnot : ¬ (refill s).remaining < n - s.remaining := by
    intro hlt
    rw [get_bits, if_neg h32, if_neg hrem, if_neg heof] at h
    rw [if_pos hlt] at h
    exact absurd (congrArg Prod.fst h) (by simp)
  rw [hrefill] at hnot
  simp only at hnot
  obtain ⟨s₃, heq, hI, _⟩ := get_bits_ok_refill n s hInv (by omega) (by omega)
    (by rw [totalBits]; omega)
  rw [h] at heq
  rw [show s₂ = s₃ from congrArg Prod.snd heq]
  exact hI

/-! ### Invariant preservation across the public operations -/

theorem ok_pair_eq {α : Type} {a b : α} {t u : Reader}
    (h : ((Except.ok a : Except RErr α), t) = (Except.ok b, u)) : a = b ∧ t = u :=
  ⟨by simpa using congrArg Prod.fst h, congrArg Prod.snd h⟩

theorem err_pair_ne {α : Type} {e : RErr} {a : α} {t u : Reader}
    (h : ((Except.error e : Except RErr α), t) = (Except.ok a, u)) : False := by
  have hh := congrArg Prod.fst h
  simp at hh

theorem f1_succ_inv (s : Reader) (hInv : Inv s) (b : Bool) (s₂ : Reader)
    (h : f1 s = (.ok b, s₂)) : Inv s₂ := by
  rcases hg : get_bits 1 s with ⟨r, t⟩
  rcases r with e | v
  · simp only [f1, hg] at h
    exact (err_pair_ne h).elim
  · simp only [f1, hg] at h
    rw [← (ok_pair_eq h).2]
    exact get_bits_succ_inv 1 s hInv v t hg

theorem f_succ_inv (n : Nat) (s : Reader) (hInv : Inv s) (v : Nat) (s₂ : Reader)
    (h : f n s = (.ok v, s₂)) : Inv s₂ :=
  get_bits_succ_inv n s hInv v s₂ h

theorem uvlcGo_succ_inv (fuel : Nat) : ∀ lz s, Inv s → ∀ v s₂,
    uvlcGo fuel lz s = (.ok v, s₂) → Inv s₂ := by
  induction fuel with
  | zero =>
    intro lz s hInv v s₂ h
    simp only [uvlcGo] at h
    exact (err_pair_ne h).elim
  | succ fuel ih =>
    intro lz s hInv v s₂ h
    rcases hf : f1 s with ⟨r, t⟩
    rcases r with e | b
    · simp only [uvlcGo, hf] at h
      exact (err_pair_ne h).elim
    have hIt : Inv t := f1_succ_inv s hInv b t hf
    rcases b with _ | _
    · simp only [uvlcGo, hf] at h
      by_cases h255 : lz = 255
      · rw [if_pos h255] at h
        exact (err_pair_ne h).elim
      · rw [if_neg h255] at h
        exact ih (lz + 1) t hIt v s₂ h
    · simp only [uvlcGo, hf] at h
      by_cases h32 : 32 ≤ lz
      · rw [if_pos h32] at h
        rw [← (ok_pair_eq h).2]
        exact hIt
      · rw [if_neg h32] at h
        rcases hfl : f lz t with ⟨r2, u⟩
        rcases r2 with e | w
        · rw [hfl] at h
          exact (err_pair_ne h).elim
        · rw [hfl] at h
          rw [← (ok_pair_eq h).2]
          exact f_succ_inv lz t hIt w u hfl

theorem uvlc_succ_inv (s : Reader) (hInv : Inv s) (v : Nat) (s₂ : Reader)
    (h : uvlc s = (.ok v, s₂)) : Inv s₂ :=
  uvlcGo_succ_inv _ 0 s hInv v s₂ h

theorem le_succ_inv (n : Nat) (s : Reader) (hInv : Inv s) (v : Nat) (s₂ : Reader)
    (h : le n s = (.ok v, s₂)) : Inv s₂ := by
  by_cases hc : 256 ≤ n * 4
  · rw [le, if_pos hc] at h
    exact (err_pair_ne h).elim
  · rw [le, if_neg hc] at h
    exact get_bits_succ_inv _ s hInv v s₂ h

theorem leb128Go_succ_inv (left : Nat) : ∀ i value s, Inv s → ∀ v s₂,
    leb128Go left i value s = (.ok v, s₂) → Inv s₂ := by
  induction left with
  | zero =>
    intro i value s hInv v s₂ h
    simp only [leb128Go] at h
    rw [← (ok_pair_eq h).2]
    exact hInv
  | succ left ih =>
    intro i value s hInv v s₂ h
    rcases hf : f 8 s with ⟨r, t⟩
    rcases r with e | byte
    · simp only [leb128Go, hf] at h
      exact (err_pair_ne h).elim
    have hIt : Inv t := f_succ_inv 8 s hInv byte t hf
    simp only [leb128Go, hf] at h
    by_cases hsh : 32 ≤ i * 7
    · rw [if_pos hsh] at h
      exact (err_pair_ne h).elim
    · rw [if_neg hsh] at h
      by_cases hbrk : byte &&& 0x80 ≠ 0
      · rw [if_pos hbrk] at h
        rw [← (ok_pair_eq h).2]
        exact hIt
      · rw [if_neg hbrk] at h
        exact ih _ _ t hIt v s₂ h

theorem leb128_succ_inv (s : Reader) (hInv : Inv s) (v : Nat) (s₂ : Reader)
    (h : leb128 s = (.ok v, s₂)) : Inv s₂ :=
  leb128Go_succ_inv 8 0 0 s hInv v s₂ h

theorem su_succ_inv (n : Nat) (s : Reader) (hInv : Inv s) (v : Int) (s₂ : Reader)
    (h : su n s = (.ok v, s₂)) : Inv s₂ := by
  rcases hf : f n s with ⟨r, t⟩
  rcases r with e | value
  · simp only [su, hf] at h
    exact (err_pair_ne h).elim
  have hIt : Inv t := f_succ_inv n s hInv value t hf
  simp only [su, hf] at h
  by_cases hsgn : value &&& 1 <<< (n - 1) ≠ 0
  · rw [if_pos hsgn] at h
    rw [← (ok_pair_eq h).2]
    exact hIt
  · rw [if_neg hsgn] at h
    rw [← (ok_pair_eq h).2]
    exact hIt

theorem ns_succ_inv (n : Nat) (s : Reader) (hInv : Inv s) (v : Nat) (s₂ : Reader)
    (h : ns n s = (.ok v, s₂)) : Inv s₂ := by
  by_cases h0 : n = 0
  · rw [ns, if_pos h0] at h
    exact (err_pair_ne h).elim
  rw [ns, if_neg h0] at h
  simp only [] at h
  rcases hf : f (Nat.log2 n + 1 - 1) s with ⟨r, t⟩
  rcases r with e | w
  · rw [hf] at h
    exact (err_pair_ne h).elim
  have hIt : Inv t := f_succ_inv _ s hInv w t hf
  rw [hf] at h
  simp only at h
  by_cases hlt : w < 1 <<< (Nat.log2 n + 1) - n
  · rw [if_pos hlt] at h
    rw [← (ok_pair_eq h).2]
    exact hIt
  · rw [if_neg hlt] at h
    rcases hf1 : f 1 t with ⟨r2, u⟩
    rcases r2 with e | b
    · rw [hf1] at h
      exact (err_pair_ne h).elim
    · rw [hf1] at h
      rw [← (ok_pair_eq h).2]
      exact f_succ_inv 1 t hIt b u hf1

theorem stepOp_succ_inv (o : Op) (s : Reader) (hInv : Inv s) (u : Unit)
    (s₂ : Reader) (h : stepOp o s = (.ok u, s₂)) : Inv s₂ := by
  cases o with
  | opF n =>
    rcases hr : f n s with ⟨r, t⟩
    simp only [stepOp, hr] at h
    rcases r with e | v
    · simp only [Except.map] at h
      exact (err_pair_ne h).elim
    · simp only [Except.map] at h
      rw [← (ok_pair_eq h).2]
      exact f_succ_inv n s hInv v t hr
  | opF1 =>
    rcases hr : f1 s with ⟨r, t⟩
    simp only [stepOp, hr] at h
    rcases r with e | v
    · simp only [Except.map] at h
      exact (err_pair_ne h).elim
    · simp only [Except.map] at h
      rw [← (ok_pair_eq h).2]
      exact f1_succ_inv s hInv v t hr
  | opUvlc =>
    rcases hr : uvlc s with ⟨r, t⟩
    simp only [stepOp, hr] at h
    rcases r with e | v
    · simp only [Except.map] at h
      exact (err_pair_ne h).elim
    · simp only [Except.map] at h
      rw [← (ok_pair_eq h).2]
      exact uvlc_succ_inv s hInv v t hr
  | opLe n =>
    rcases hr : le n s with ⟨r, t⟩
    simp only [stepOp, hr] at h
    rcases r with e | v
    · simp only [Except.map] at h
      exact (err_pair_ne h).elim
    · simp only [Except.map] at h
      rw [← (ok_pair_eq h).2]
      exact le_succ_inv n s hInv v t hr
  | opLeb128 =>
    rcases hr : leb128 s with ⟨r, t⟩
    simp only [stepOp, hr] at h
    rcases r with e | v
    · simp only [Except.map] at h
      exact (err_pair_ne h).elim
    · simp only [Except.map] at h
      rw [← (ok_pair_eq h).2]
      exact leb128_succ_inv s hInv v t hr
  | opSu n =>
    rcases hr : su n s with ⟨r, t⟩
    simp only [stepOp, hr] at h
    rcases r with e | v
    · simp only [Except.map] at h
      exact (err_pair_ne h).elim
    · simp only [Except.map] at h
      rw [← (ok_pair_eq h).2]
      exact su_succ_inv n s hInv v t hr
  | opNs n =>
    rcases hr : ns n s with ⟨r, t⟩
    simp only [stepOp, hr] at h
    rcases r with e | v
    · simp only [Except.map] at h
      exact (err_pair_ne h).elim
    · simp only [Except.map] at h
      rw [← (ok_pair_eq h).2]
      exact ns_succ_inv n s hInv v t hr

theorem runOps_inv (ops : List Op) : ∀ s, Inv s → ∀ u s₂,
    runOps ops s = (.ok u, s₂) → Inv s₂ := by
  induction ops with
  | nil =>
    intro s hInv u s₂ h
    simp only [runOps] at h
    rw [← (ok_pair_eq h).2]
    exact hInv
  | cons o os ih =>
    intro s hInv u s₂ h
    rcases hr : stepOp o s with ⟨r, t⟩
    rcases r with e | u0
    · simp only [runOps, hr] at h
      exact (err_pair_ne h).elim
    · simp only [runOps, hr] at h
      exact ih t (stepOp_succ_inv o s hInv u0 t hr) u s₂ h

/-- A fresh reader satisfies the invariant. -/
theorem new_inv (input : List Nat) (h : ∀ b ∈ input, b < 256) : Inv (new input) := by
  by_cases hne : input = []
  · rw [new, hne, refill_nil _ rfl]
    exact ⟨by show (0 : Nat) ≤ 32; omega, by show (0 : Nat) < U32; rw [U32]; positivity,
      by simp, fun _ => rfl, by simp⟩
  · rw [new, refill_eq _ (by simpa using h) (by simpa using hne)]
    simp only
    set len := input.length with hlendef
    set k := min 4 len with hkdef
    have hk1 : 1 ≤ k := by
      have : 1 ≤ len := by
        cases hi : input
        · exact absurd hi hne
        · simp [hlendef, hi]
      omega
    have htakelen : (input.take k).length = k := by
      rw [List.length_take]
      omega
    have hwlt : beValue (input.take k) < 2 ^ (8 * k) := by
      have hh := beValue_lt (input.take k)
        (fun b hb => h b (List.take_subset _ _ hb))
      rw [htakelen, two_pow_eight_mul] at hh
      exact hh
    refine ⟨by show 8 * k ≤ 32; omega, ?_, Nat.mul_mod_left _ _, ?_, ?_⟩
    · calc beValue (input.take k) * 2 ^ (32 - 8 * k)
          < 2 ^ (8 * k) * 2 ^ (32 - 8 * k) := by
            exact (Nat.mul_lt_mul_right (Nat.pos_pow_of_pos _ (by omega))).mpr hwlt
        _ = U32 := by rw [U32, ← pow_add]; exact congrArg _ (by omega)
    · intro he
      simp only [Bool.false_or, decide_eq_true_eq] at he
      exact List.drop_eq_nil_of_le (by omega)
    · exact fun b hb => h b (List.drop_subset _ _ hb)

/-! ### The two's-complement reinterpretation performed by `su` -/

theorem and_two_pow_ne_zero (x i : Nat) :
    (x &&& 2 ^ i ≠ 0) ↔ x.testBit i = true := by
  constructor
  · intro hne
    by_contra htb
    apply hne
    apply Nat.eq_of_testBit_eq
    intro j
    rw [Nat.testBit_and, Nat.zero_testBit]
    by_cases hji : i = j
    · rw [← hji]
      simp only [Bool.not_eq_true] at htb
      rw [htb, Bool.false_and]
    · rw [Nat.testBit_two_pow_of_ne hji, Bool.and_false]
  · intro htb hzero
    have hbit : (x &&& 2 ^ i).testBit i = true := by
      rw [Nat.testBit_and, htb, Nat.testBit_two_pow_self]
      rfl
    rw [hzero, Nat.zero_testBit] at hbit
    exact Bool.noConfusion hbit

theorem testBit_top_true (n v : Nat) (h1 : 1 ≤ n) (hlo : 2 ^ (n - 1) ≤ v)
    (hhi : v < 2 ^ n) : v.testBit (n - 1) = true := by
  rw [Nat.testBit_to_div_mod]
  have hd1 : 1 ≤ v / 2 ^ (n - 1) := (Nat.one_le_div_iff (Nat.pos_pow_of_pos _ (by omega))).mpr hlo
  have hd2 : v / 2 ^ (n - 1) < 2 := by
    rw [Nat.div_lt_iff_lt_mul (Nat.pos_pow_of_pos _ (by omega))]
    calc v < 2 ^ n := hhi
      _ = 2 ^ (n - 1) * 2 := by
          rw [← pow_succ]; exact congrArg _ (by omega)
      _ = 2 * 2 ^ (n - 1) := by ring
  have : v / 2 ^ (n - 1) = 1 := by omega
  rw [this]
  decide

theorem lt_half_of_testBit_false (n v : Nat) (h1 : 1 ≤ n) (hhi : v < 2 ^ n)
    (htb : v.testBit (n - 1) = false) : v < 2 ^ (n - 1) := by
  by_contra hge
  rw [testBit_top_true n v h1 (by omega) hhi] at htb
  exact Bool.noConfusion htb

theorem su_wrap_eq (n v : Nat) (h1 : 1 ≤ n) (h32 : n ≤ 32) (hv : v < 2 ^ n)
    (htb : v.testBit (n - 1) = true) :
    toI32 (wrapSubU (wrapSubU v (2 ^ (n - 1))) (2 ^ (n - 1))) = (v : Int) - 2 ^ n := by
  have hm : (2 : Nat) ^ (n - 1) ≤ v := Nat.testBit_implies_ge htb
  have hM31 : (2 : Nat) ^ (n - 1) ≤ 2 ^ 31 := Nat.pow_le_pow_right (by omega) (by omega)
  have h2n : (2 : Nat) ^ n = 2 ^ (n - 1) + 2 ^ (n - 1) := by
    have hp : (2 : Nat) ^ (n - 1 + 1) = 2 ^ (n - 1) * 2 := pow_succ 2 (n - 1)
    rw [show n - 1 + 1 = n by omega] at hp
    omega
  have hcast : ((2 : Int) ^ n) = ((2 ^ n : Nat) : Int) := by push_cast; ring
  simp only [wrapSubU, toI32, U32, hcast]
  generalize hMg : (2 : Nat) ^ (n - 1) = M at *
  generalize hNg : (2 : Nat) ^ n = N at *
  split
  · omega
  · omega

theorem toI32_small (v : Nat) (hv : v < 2 ^ 31) : toI32 v = (v : Int) := by
  rw [toI32, U32, Nat.mod_eq_of_lt (by omega), if_pos (by omega)]

/-- `su` computed on an explicit reader: the result is `suDecode` of the next
`n` bits. -/
theorem su_ok (n : Nat) (s : Reader) (hInv : Inv s) (h1 : 1 ≤ n) (h32 : n ≤ 32)
    (hav : n ≤ totalBits s) :
    ∃ s₂, su n s = (.ok (suDecode n (bitsToNat ((bitsOf s).take n))), s₂) ∧
      Inv s₂ ∧ bitsOf s₂ = (bitsOf s).drop n := by
  obtain ⟨s₂, hf, hI, hb⟩ := f_ok n s hInv h1 h32 hav
  refine ⟨s₂, ?_, hI, hb⟩
  set v := bitsToNat ((bitsOf s).take n) with hvdef
  have hvlt : v < 2 ^ n := by
    have h := bitsToNat_lt ((bitsOf s).take n)
    rw [List.length_take] at h
    have hlen : n ≤ (bitsOf s).length := by rw [bitsOf_length]; omega
    calc v < 2 ^ min n (bitsOf s).length := h
      _ ≤ 2 ^ n := Nat.pow_le_pow_right (by omega) (by omega)
  have hshift : (1 : Nat) <<< (n - 1) = 2 ^ (n - 1) := by
    rw [Nat.shiftLeft_eq, Nat.one_mul]
  simp only [su, hf, hshift]
  by_cases htb : v.testBit (n - 1) = true
  · rw [if_pos (by rw [and_two_pow_ne_zero]; exact htb)]
    rw [su_wrap_eq n v h1 h32 hvlt htb, suDecode, if_pos htb]
  · simp only [Bool.not_eq_true] at htb
    have hand : ¬ (v &&& 2 ^ (n - 1) ≠ 0) := by
      intro hne
      rw [and_two_pow_ne_zero] at hne
      rw [hne] at htb
      exact Bool.noConfusion htb
    rw [if_neg hand, suDecode, if_neg (by rw [htb]; simp)]
    rw [toI32_small v (by
      have hsmall := lt_half_of_testBit_false n v h1 hvlt htb
      have h31 : (2 : Nat) ^ (n - 1) ≤ 2 ^ 31 := Nat.pow_le_pow_right (by omega) (by omega)
      omega)]

/-- `suDecode n` is a bijection between the `n`-bit patterns and the signed
range `[-2 ^ (n - 1), 2 ^ (n - 1) - 1]`. -/
theorem suDecode_bijOn (n : Nat) (h1 : 1 ≤ n) :
    Set.BijOn (suDecode n) (Set.Iio (2 ^ n))
      (Set.Icc (-(2 ^ (n - 1) : Int)) ((2 ^ (n - 1) : Int) - 1)) := by
  have eN : ((2 : Int) ^ n) = ((2 ^ n : Nat) : Int) := by push_cast; ring
  have eM : ((2 : Int) ^ (n - 1)) = ((2 ^ (n - 1) : Nat) : Int) := by push_cast; ring
  have hNM : (2 : Nat) ^ n = 2 ^ (n - 1) + 2 ^ (n - 1) := by
    have hp : (2 : Nat) ^ (n - 1 + 1) = 2 ^ (n - 1) * 2 := pow_succ 2 (n - 1)
    rw [show n - 1 + 1 = n by omega] at hp
    omega
  refine ⟨?_, ?_, ?_⟩
  · intro v hv
    rw [Set.mem_Iio] at hv
    rw [Set.mem_Icc]
    by_cases htb : v.testBit (n - 1) = true
    · have hge := Nat.testBit_implies_ge htb
      rw [suDecode, if_pos htb, eN, eM]
      omega
    · simp only [Bool.not_eq_true] at htb
      have hsmall := lt_half_of_testBit_false n v h1 hv htb
      rw [suDecode, if_neg (by rw [htb]; simp), eM]
      omega
  · intro v1 hv1 v2 hv2 heq
    rw [Set.mem_Iio] at hv1 hv2
    by_cases tb1 : v1.testBit (n - 1) = true <;>
      by_cases tb2 : v2.testBit (n - 1) = true
    · have g1 := Nat.testBit_implies_ge tb1
      have g2 := Nat.testBit_implies_ge tb2
      rw [suDecode, if_pos tb1, suDecode, if_pos tb2] at heq
      have : (v1 : Int) = v2 := by omega
      exact_mod_cast this
    · simp only [Bool.not_eq_true] at tb2
      have g1 := Nat.testBit_implies_ge tb1
      rw [suDecode, if_pos tb1, suDecode, if_neg (by rw [tb2]; simp), eN] at heq
      omega
    · simp only [Bool.not_eq_true] at tb1
      have g2 := Nat.testBit_implies_ge tb2
      rw [suDecode, if_neg (by rw [tb1]; simp), suDecode, if_pos tb2, eN] at heq
      omega
    · simp only [Bool.not_eq_true] at tb1 tb2
      rw [suDecode, if_neg (by rw [tb1]; simp), suDecode,
        if_neg (by rw [tb2]; simp)] at heq
      exact_mod_cast heq
  · intro y hy
    rw [Set.mem_Icc] at hy
    rcases le_or_lt 0 y with hpos | hneg
    · refine ⟨y.toNat, ?_, ?_⟩
      · rw [Set.mem_Iio]
        have : (y.toNat : Int) = y := Int.toNat_of_nonneg hpos
        rw [eM] at hy
        omega
      · have hlt : y.toNat < 2 ^ (n - 1) := by
          have : (y.toNat : Int) = y := Int.toNat_of_nonneg hpos
          rw [eM] at hy
          omega
        rw [suDecode, if_neg (by rw [Nat.testBit_lt_two_pow hlt]; simp)]
        exact Int.toNat_of_nonneg hpos
    · have hyN : (0 : Int) ≤ y + ((2 ^ n : Nat) : Int) := by
        rw [eM] at hy
        omega
      refine ⟨(y + ((2 ^ n : Nat) : Int)).toNat, ?_, ?_⟩
      · rw [Set.mem_Iio]
        have hc : ((y + ((2 ^ n : Nat) : Int)).toNat : Int) = y + ((2 ^ n : Nat) : Int) :=
          Int.toNat_of_nonneg hyN
        omega
      · have hc : ((y + ((2 ^ n : Nat) : Int)).toNat : Int) = y + ((2 ^ n : Nat) : Int) :=
          Int.toNat_of_nonneg hyN
        have hlo : 2 ^ (n - 1) ≤ (y + ((2 ^ n : Nat) : Int)).toNat := by
          rw [eM] at hy
          omega
        have hhi : (y + ((2 ^ n : Nat) : Int)).toNat < 2 ^ n := by omega
        rw [suDecode, if_pos (testBit_top_true n _ h1 hlo hhi), eN]
        omega

/-! ### Splitting a single read into two -/

theorem take_add_split {α : Type} {a b : Nat} {l : List α} (h : a ≤ l.length) :
    l.take (a + b) = l.take a ++ (l.drop a).take b := by
  conv_lhs => rw [← List.take_append_drop a l]
  rw [List.take_append_eq_append_take,
    List.take_of_length_le (by rw [List.length_take]; omega),
    List.length_take, show a + b - min a l.length = b by omega]

/-- Two consecutive reads `f a; f b` deliver the high and low groups of the
single read `f (a + b)`. -/
theorem f_split_general (a b : Nat) (s : Reader) (hInv : Inv s) (ha : 1 ≤ a)
    (hb : 1 ≤ b) (hab : a + b ≤ 32) (hav : a + b ≤ totalBits s) :
    ∃ v s₂ s₁ s₂', f (a + b) s = (.ok v, s₂) ∧
      f a s = (.ok (v / 2 ^ b), s₁) ∧ f b s₁ = (.ok (v % 2 ^ b), s₂') := by
  obtain ⟨s₂, hfab, _, _⟩ := f_ok (a + b) s hInv (by omega) hab hav
  obtain ⟨s₁, hfa, hI₁, hb₁⟩ := f_ok a s hInv ha (by omega) (by omega)
  have hlen : (bitsOf s).length = totalBits s := bitsOf_length s
  have hav₁ : b ≤ totalBits s₁ := by
    rw [← bitsOf_length, hb₁, List.length_drop]
    omega
  obtain ⟨s₂', hfb, _, _⟩ := f_ok b s₁ hI₁ hb (by omega) hav₁
  rw [hb₁] at hfb
  have hsplit : (bitsOf s).take (a + b) =
      (bitsOf s).take a ++ ((bitsOf s).drop a).take b := take_add_split (by omega)
  have hlb : (((bitsOf s).drop a).take b).length = b := by
    rw [List.length_take, List.length_drop]
    omega
  have hval : bitsToNat ((bitsOf s).take (a + b)) =
      bitsToNat ((bitsOf s).take a) * 2 ^ b +
        bitsToNat (((bitsOf s).drop a).take b) := by
    rw [hsplit, bitsToNat_append, hlb]
  have hlt : bitsToNat (((bitsOf s).drop a).take b) < 2 ^ b := by
    have h := bitsToNat_lt (((bitsOf s).drop a).take b)
    rw [hlb] at h
    exact h
  refine ⟨bitsToNat ((bitsOf s).take (a + b)), s₂, s₁, s₂', hfab, ?_, ?_⟩
  · rw [hfa]
    have hdiv : bitsToNat ((bitsOf s).take (a + b)) / 2 ^ b =
        bitsToNat ((bitsOf s).take a) := by
      rw [hval, mul_comm, Nat.mul_add_div (Nat.pos_pow_of_pos _ (by omega)),
        Nat.div_eq_of_lt hlt, Nat.add_zero]
    rw [hdiv]
  · rw [hfb]
    have hmod : bitsToNat ((bitsOf s).take (a + b)) % 2 ^ b =
        bitsToNat (((bitsOf s).drop a).take b) := by
      rw [hval, mul_comm, Nat.mul_add_mod, Nat.mod_eq_of_lt hlt]
    rw [hmod]

/-! ### The `uvlc` saturation behaviour on long zero runs -/

theorem uvlcGo_zeros (k : Nat) : ∀ fuel lz s rest, Inv s →
    bitsOf s = List.replicate k false ++ true :: rest →
    32 ≤ lz + k → lz + k ≤ 255 → k + 1 ≤ fuel →
    (uvlcGo fuel lz s).1 = .ok (U32 - 1) := by
  induction k with
  | zero =>
    intro fuel lz s rest hInv hbits h32 h255 hfuel
    rcases fuel with _ | fuel
    · omega
    rw [List.replicate_zero, List.nil_append] at hbits
    obtain ⟨s₂, hf1, _, _⟩ := f1_ok s hInv true rest hbits
    simp only [uvlcGo, hf1]
    rw [if_pos (by omega : 32 ≤ lz)]
  | succ k ih =>
    intro fuel lz s rest hInv hbits h32 h255 hfuel
    rcases fuel with _ | fuel
    · omega
    have hbits' : bitsOf s = false :: (List.replicate k false ++ true :: rest) := by
      rw [hbits, List.replicate_succ, List.cons_append]
    obtain ⟨s₂, hf1, hI₂, hb₂⟩ := f1_ok s hInv false _ hbits'
    simp only [uvlcGo, hf1]
    rw [if_neg (by omega : ¬ lz = 255)]
    exact ih fuel (lz + 1) s₂ rest hI₂ hb₂ (by omega) (by omega) (by omega)

/-! ### The claims -/

/-- Claim C1: the claim states that `f(n)` on a source with fewer than `n`
unread bits fails with an end-of-stream error, leaves the cursor unchanged,
and never returns zero padding from a partial refill.  The code violates
this: on a five-byte source, after `f(32)` only 8 bits remain with the `eof`
flag still clear, and `f(16)` runs a partial refill and then panics on the
`remaining -= taken` underflow (release builds would return a value padded
with fabricated zero bits) instead of returning the end-of-stream error. -/
theorem C1_partial_refill_panics :
    totalBits (f 32 (new [0, 0, 0, 0, 0])).2 = 8 ∧
    (f 32 (new [0, 0, 0, 0, 0])).1 = .ok 0 ∧
    (f 16 (f 32 (new [0, 0, 0, 0, 0])).2).1 = .error .overflow := by
  refine ⟨by decide, by decide, by decide⟩

/-- Claim C2: the claim states that `le(n)` consumes `n` whole bytes and
assembles them little-endian; the code instead calls `get_bits(n * 4)`, so
`le(2)` on the source `01 02 03 04` consumes only 8 bits and returns the
most-significant-bit-first value 1 rather than the little-endian two-byte
value 0x0201 = 513, leaving 24 rather than 16 unread bits. -/
theorem C2_le_reads_nibbles :
    (le 2 (new [1, 2, 3, 4])).1 = .ok 1 ∧
    totalBits (le 2 (new [1, 2, 3, 4])).2 = 24 := by
  refine ⟨by decide, by decide⟩

/-- Claim C3: the claim states that `leb128()` stops at the first byte whose
continuation bit is 0, decoding `0x01` to 1 and `0x81 0x01` to 129.  The
code's stopping test is inverted (`byte & 0x80 != 0` breaks), so `0x81 0x01`
decodes to 1 after a single byte and the lone byte `0x01` keeps the loop
reading and ends in an end-of-stream error instead of returning 1. -/
theorem C3_leb128_continuation_inverted :
    (leb128 (new [0x81, 0x01])).1 = .ok 1 ∧
    (leb128 (new [0x01])).1 = .error .eof := by
  refine ⟨by decide, by decide⟩

/-- Claim C4: the claim states that `uvlc()` with `k` leading zero bits
(`k < 32`) returns `suffix + 2 ^ k - 1`, in particular 0 when the first bit
is a one.  The code violates the `k = 0` case: the suffix read `f(0)` reaches
`buf >> (32 - 0)`, a shift by the full accumulator width, which panics
instead of returning 0. -/
theorem C4_uvlc_zero_run_panics :
    bitsOf (new [0x80, 0, 0, 0]) = true :: List.replicate 31 false ∧
    (uvlc (new [0x80, 0, 0, 0])).1 = .error .overflow := by
  refine ⟨by decide, by decide⟩

/-- Claim C5 (amended): for a run of `k` leading zero bits with
`32 ≤ k ≤ 255` followed by a one bit, `uvlc()` returns the saturated maximum
`2 ^ 32 - 1` without failing.  (The unamended claim, for every `k ≥ 32`,
fails at `k = 256`: the `u8` leading-zero counter overflows and the call
panics, see the counterexample.) -/
theorem C5_uvlc_saturates (k : Nat) (s : Reader) (rest : List Bool) (hInv : Inv s)
    (hk32 : 32 ≤ k) (hk255 : k ≤ 255)
    (hbits : bitsOf s = List.replicate k false ++ true :: rest) :
    (uvlc s).1 = .ok (2 ^ 32 - 1) := by
  have hlen : totalBits s = k + 1 + rest.length := by
    rw [← bitsOf_length, hbits]
    simp [List.length_replicate]
    omega
  rw [uvlc]
  exact uvlcGo_zeros k (totalBits s + 1) 0 s rest hInv hbits (by omega) (by omega)
    (by omega)

/-- Claim C5, witness: on the source `00 00 00 00 80` (32 zero bits, then a
one bit) `uvlc` returns `2 ^ 32 - 1`. -/
theorem C5_witness :
    (Inv (new [0, 0, 0, 0, 0x80]) ∧
      bitsOf (new [0, 0, 0, 0, 0x80]) =
        List.replicate 32 false ++ true :: List.replicate 7 false) ∧
    (uvlc (new [0, 0, 0, 0, 0x80])).1 = .ok (2 ^ 32 - 1) :=
  ⟨⟨by decide, by decide⟩,
    C5_uvlc_saturates 32 (new [0, 0, 0, 0, 0x80]) (List.replicate 7 false)
      (by decide) (by omega) (by omega) (by decide)⟩

/-- Claim C5, counterexample to the unamended claim: 256 leading zero bits
followed by a one bit make the `u8` leading-zero counter overflow, so `uvlc`
panics instead of returning `2 ^ 32 - 1`. -/
theorem C5_counterexample :
    bitsOf (new (List.replicate 32 0 ++ [0x80])) =
      List.replicate 256 false ++ true :: List.replicate 7 false ∧
    (uvlc (new (List.replicate 32 0 ++ [0x80]))).1 = .error .overflow := by
  refine ⟨by decide, by decide⟩

/-- Claim C6: with enough remaining bits and `1 ≤ n ≤ 32`, `su(n)` reads the
`n`-bit magnitude `v` and returns `v` when the top bit of `v` is clear and
`v - 2 ^ n` (computed with wrapping arithmetic, no signed-overflow trap) when
it is set; this map is a bijection from the `n`-bit patterns onto
`[-2 ^ (n - 1), 2 ^ (n - 1) - 1]`; and at `n = 32` the all-ones pattern
(after one leading zero byte, as in the repository's own test) decodes to
`-1` without trapping. -/
theorem C6_su_sign_reinterpretation (n : Nat) (s : Reader) (hInv : Inv s)
    (h1 : 1 ≤ n) (h32 : n ≤ 32) (hav : n ≤ totalBits s) :
    (∃ s₂, su n s = (.ok (suDecode n (bitsToNat ((bitsOf s).take n))), s₂) ∧
      Inv s₂ ∧ bitsOf s₂ = (bitsOf s).drop n) ∧
    Set.BijOn (suDecode n) (Set.Iio (2 ^ n))
      (Set.Icc (-(2 ^ (n - 1) : Int)) ((2 ^ (n - 1) : Int) - 1)) ∧
    (su 32 (su 32 (new [0x00, 0xff, 0xff, 0xff, 0xff, 0xff, 0xff, 0xff])).2).1 =
      .ok (-1) :=
  ⟨su_ok n s hInv h1 h32 hav, suDecode_bijOn n h1, by decide⟩

/-- Claim C6, witness: `su(4)` on the source `1F 2E` (first group `0001`)
returns `suDecode 4 1 = 1`. -/
theorem C6_witness :
    (Inv (new [0x1f, 0x2e]) ∧ 1 ≤ 4 ∧ 4 ≤ 32 ∧ 4 ≤ totalBits (new [0x1f, 0x2e])) ∧
    (∃ s₂, su 4 (new [0x1f, 0x2e]) =
        (.ok (suDecode 4 (bitsToNat ((bitsOf (new [0x1f, 0x2e])).take 4))), s₂) ∧
      Inv s₂ ∧ bitsOf s₂ = (bitsOf (new [0x1f, 0x2e])).drop 4) :=
  ⟨⟨by decide, by decide, by decide, by decide⟩,
    (C6_su_sign_reinterpretation 4 (new [0x1f, 0x2e]) (by decide) (by decide)
      (by decide) (by decide)).1⟩

/-- Claim C7: for widths `a, b ≥ 1` with `a + b ≤ 32` and at least `a + b`
unread bits, `f(a)` then `f(b)` return exactly the high `a` bits and the low
`b` bits of the value a single `f(a + b)` on the same cursor state would
return. -/
theorem C7_f_split (a b : Nat) (s : Reader) (hInv : Inv s) (ha : 1 ≤ a)
    (hb : 1 ≤ b) (hab : a + b ≤ 32) (hav : a + b ≤ totalBits s) :
    ∃ v s₂ s₁ s₂', f (a + b) s = (.ok v, s₂) ∧
      f a s = (.ok (v / 2 ^ b), s₁) ∧ f b s₁ = (.ok (v % 2 ^ b), s₂') :=
  f_split_general a b s hInv ha hb hab hav

/-- Claim C7, witness: on the source `B3 8F`, `f(8)` returns 179 while
`f(4); f(4)` return 11 = 179 / 16 and 3 = 179 % 16. -/
theorem C7_witness :
    (Inv (new [0xb3, 0x8f]) ∧ 1 ≤ 4 ∧ 1 ≤ 4 ∧ 4 + 4 ≤ 32 ∧
      4 + 4 ≤ totalBits (new [0xb3, 0x8f])) ∧
    (∃ v s₂ s₁ s₂', f (4 + 4) (new [0xb3, 0x8f]) = (.ok v, s₂) ∧
      f 4 (new [0xb3, 0x8f]) = (.ok (v / 2 ^ 4), s₁) ∧
      f 4 s₁ = (.ok (v % 2 ^ 4), s₂')) :=
  ⟨⟨by decide, by decide, by decide, by decide, by decide⟩,
    C7_f_split 4 4 (new [0xb3, 0x8f]) (by decide) (by decide) (by decide)
      (by decide) (by decide)⟩

/-- Claim C8: the OBU framer maps the 4-bit type tag as 1 to SequenceHeader,
2 to TemporalDelimiter, 3 to FrameHeader, 4 to TileGroup, 5 to Metadata, 6 to
Frame, 7 to RedundantFrameHeader, 8 to TileList, 15 to Padding, and every
remaining tag (0 and 9 through 14) to the Reserved fallthrough. -/
theorem C8_obu_tag_mapping :
    obuTypeOfTag 1 = .SequenceHeader ∧
    obuTypeOfTag 2 = .TemporalDelimiter ∧
    obuTypeOfTag 3 = .FrameHeader ∧
    obuTypeOfTag 4 = .TileGroup ∧
    obuTypeOfTag 5 = .Metadata ∧
    obuTypeOfTag 6 = .Frame ∧
    obuTypeOfTag 7 = .RedundantFrameHeader ∧
    obuTypeOfTag 8 = .TileList ∧
    obuTypeOfTag 15 = .Padding ∧
    obuTypeOfTag 0 = .Reserved ∧
    obuTypeOfTag 9 = .Reserved ∧
    obuTypeOfTag 10 = .Reserved ∧
    obuTypeOfTag 11 = .Reserved ∧
    obuTypeOfTag 12 = .Reserved ∧
    obuTypeOfTag 13 = .Reserved ∧
    obuTypeOfTag 14 = .Reserved := by
  decide

/-- Claim C9: after any sequence of successful cursor operations (`f`, `f1`,
`uvlc`, `le`, `leb128`, `su`, `ns`) on a reader built by `new`, the count of
valid bits held in the accumulator never exceeds the 32-bit accumulator
width. -/
theorem C9_remaining_le_width (input : List Nat) (hbytes : ∀ b ∈ input, b < 256)
    (ops : List Op) (u : Unit) (s : Reader)
    (h : runOps ops (new input) = (.ok u, s)) : s.remaining ≤ 32 :=
  (runOps_inv ops (new input) (new_inv input hbytes) u s h).1

/-- Claim C9, witness: the run `f(3); f1; su(4); f(8)` on the two-byte source
`B3 8F` succeeds and ends with 0 valid accumulator bits. -/
theorem C9_witness :
    (∀ b ∈ [179, 143], b < 256) ∧
    runOps [Op.opF 3, Op.opF1, Op.opSu 4, Op.opF 8] (new [179, 143]) =
      (.ok (), Reader.mk 0 0 true []) ∧
    (Reader.mk 0 0 true []).remaining ≤ 32 :=
  ⟨by decide, by decide,
    C9_remaining_le_width [179, 143] (by decide)
      [Op.opF 3, Op.opF1, Op.opSu 4, Op.opF 8] () (Reader.mk 0 0 true [])
      (by decide)⟩

/-- Claim C10: `leb128()` is not total: on six bytes with the continuation
bit clear (six zero bytes, which under the implemented stopping rule keep the
loop running) the sixth iteration computes `(byte & 0x7f) << 35`, a shift by
at least the 32-bit width, so the call panics with an overflowing shift even
though six whole-byte reads on the same source all succeed. -/
theorem C10_leb128_shift_overflow :
    (leb128 (new [0, 0, 0, 0, 0, 0])).1 = .error .overflow ∧
    (runOps (List.replicate 6 (Op.opF 8)) (new [0, 0, 0, 0, 0, 0])).1 = .ok () := by
  refine ⟨by decide, by decide⟩

end Ranalyzer
